import Mathlib

/-!
Shallow embedding of the algorithmic core of the AI tourist route planner
(the route-optimization module: haversine fallback distance, OSRM-backed
road routing with fallback, greedy nearest-neighbor ordering, parallel
segment fetching with totals, threshold classification, BFS reachability
and DFS path exploration), together with theorems settling the frozen
claims about that code.

Modelling conventions:
- Coordinates and distances are rationals.  The concrete JavaScript
  function haversineDistance computes with IEEE doubles and trigonometric
  primitives; it is a fixed pure function of the two coordinates, so it is
  abstracted here as a parameter hD : Coord -> Coord -> Q.  Every theorem
  is proved for all such functions, hence in particular for the actual
  haversine.
- The network lookup getRealRoute is asynchronous and fallible; its
  observable behaviour at a call site is a value of Option RouteResult
  (none models the catch-branch returning null).  It is abstracted as a
  parameter router : Coord -> Coord -> Option RouteResult; determinism of
  this parameter models a single optimization request where repeated
  lookups of the same pair behave identically.  The travel profile is
  baked into the router parameter.
- The JavaScript while/for loops are written as structurally recursive
  functions with an explicit fuel argument; each caller passes fuel that
  provably suffices (fuel-irrelevance lemmas are proved where the bound is
  not syntactically obvious), so the fuelled functions agree with the
  unbounded loops of the source.
- JavaScript Set iteration is in insertion order; the sets iterated here
  are always built from ascending index ranges, so they are modelled by
  ascending lists, and Set deletion by List.erase.
-/

namespace RoutePlanner

/-- Geographic coordinate, the lat and lng fields of the source objects. -/
structure Coord where
  lat : ℚ
  lng : ℚ
deriving DecidableEq, Repr, Inhabited

/-- Tourist place record as found in the places data set. -/
structure Place where
  id : String
  name : String
  coordinates : Coord
  description : String
deriving DecidableEq, Repr, Inhabited

/-- Successful payload of getRealRoute: distance in km (already divided by
1000), duration in seconds, the GeoJSON line geometry and its coordinate
list. -/
structure RouteResult where
  distance : ℚ
  duration : ℚ
  geometry : List Coord
  coordinates : List Coord
deriving DecidableEq, Repr, Inhabited

/-- Leg endpoint marker: the JavaScript code uses the string literal
start or a numeric place index in the from field of a segment. -/
inductive Endpoint where
  | start : Endpoint
  | place : ℕ → Endpoint
deriving DecidableEq, Repr, Inhabited

/-- Route segment assembled by fetchRealRoutesInParallel.  The from field
of the source object is named src here because from is a Lean keyword; to
is named dst for symmetry. -/
structure RouteSegment where
  src : Endpoint
  dst : ℕ
  distance : ℚ
  duration : Option ℚ
  geometry : Option (List Coord)
  coordinates : List Coord
deriving DecidableEq, Repr, Inhabited

/-- Projection of a segment pushed into farSegments by
heuristicOptimizedRoute (fields from, to, distance, duration). -/
structure FarSegment where
  src : Endpoint
  dst : ℕ
  distance : ℚ
  duration : Option ℚ
deriving DecidableEq, Repr, Inhabited

/-- Return value of fastHeuristicOrdering. -/
structure OrderResult where
  order : List ℕ
  path : List Coord
  startIndex : Option ℕ
deriving DecidableEq, Repr, Inhabited

/-- Return value of fetchRealRoutesInParallel. -/
structure FetchResult where
  routeSegments : List RouteSegment
  totalDistance : ℚ
  totalDuration : ℚ
deriving DecidableEq, Repr, Inhabited

/-- Return value of heuristicOptimizedRoute. -/
structure OptimizedRoute where
  order : List ℕ
  path : List Coord
  startIndex : Option ℕ
  routeSegments : List RouteSegment
  totalDistance : ℚ
  totalDuration : ℚ
  farSegments : List FarSegment
  threshold : ℚ
  profile : String
deriving DecidableEq, Repr, Inhabited

/-- Indexing places(i).coordinates.  All indices that arise in the
algorithms are in range for nonempty place lists, where the default is
never taken. -/
def coordAt (places : List Place) (i : ℕ) : Coord :=
  (places.getD i default).coordinates

/-- Selection loop with initializers nearestIdx = 0, minDist = Infinity
(none models Infinity, which every finite distance beats), updating on a
strict comparison.  Mirrors the start-place loops of fastHeuristicOrdering
and bfsReachability. -/
def nearestIndex (f : ℕ → ℚ) (idxs : List ℕ) : ℕ :=
  (idxs.foldl
    (fun acc idx =>
      match acc.2 with
      | none => (idx, some (f idx))
      | some m => if f idx < m then (idx, some (f idx)) else acc)
    ((0 : ℕ), (none : Option ℚ))).1

/-- Selection loop with initializers nearestIdx = null, minDist = Infinity,
updating on a strict comparison; mirrors the nearest-unvisited loop inside
fastHeuristicOrdering.  Returns none exactly when the candidate list is
empty. -/
def nearestUnvisited (f : ℕ → ℚ) (idxs : List ℕ) : Option ℕ :=
  (idxs.foldl
    (fun acc idx =>
      match acc with
      | none => some (idx, f idx)
      | some bm => if f idx < bm.2 then some (idx, f idx) else some bm)
    (none : Option (ℕ × ℚ))).map Prod.fst

/-- Main while loop of fastHeuristicOrdering.  The state on entry to each
iteration is the current index together with the remaining unvisited
indices in Set iteration order with the current one already removed (the
source deletes it first thing in the body); the loop pushes the current
index, stops if nothing remains, otherwise moves to the nearest unvisited
index.  Fuel equals the number of remaining indices at the initial call,
which suffices because each iteration consumes one unvisited index. -/
def greedyLoop (f : ℕ → ℕ → ℚ) : ℕ → ℕ → List ℕ → List ℕ
  | 0, current, _ => [current]
  | fuel + 1, current, rest =>
    match nearestUnvisited (f current) rest with
    | none => [current]
    | some next => current :: greedyLoop f fuel next (rest.erase next)

section Model

variable (hD : Coord → Coord → ℚ)
variable (router : Coord → Coord → Option RouteResult)

/-- Pairwise haversine distance between the coordinates of two places,
the distance expression used inside the ordering loops. -/
def placeDist (places : List Place) (i j : ℕ) : ℚ :=
  hD (coordAt places i) (coordAt places j)

/-- Shallow embedding of fastHeuristicOrdering(places, startPoint). -/
def fastHeuristicOrdering (places : List Place) (startPoint : Option Coord) :
    OrderResult :=
  if places.length = 0 then
    { order := [], path := [], startIndex := none }
  else if places.length = 1 then
    { order := [0], path := [coordAt places 0], startIndex := some 0 }
  else
    match startPoint with
    | some sp =>
      let nearestIdx :=
        nearestIndex (fun i => hD sp (coordAt places i)) (List.range places.length)
      let rest := (List.range places.length).erase nearestIdx
      let order := greedyLoop (placeDist hD places) rest.length nearestIdx rest
      { order := order
        path := sp :: order.map (coordAt places)
        startIndex := some nearestIdx }
    | none =>
      let rest := (List.range places.length).erase 0
      let order := greedyLoop (placeDist hD places) rest.length 0 rest
      { order := order
        path := order.map (coordAt places)
        startIndex := some 0 }

/-- Consecutive-pair legs of the ordered places: the source loop for i
from 0 to order.length - 2 pairing order(i) with order(i + 1). -/
def consecutiveLegs (order : List ℕ) : List (Endpoint × ℕ) :=
  (order.zip order.tail).map (fun p => (Endpoint.place p.1, p.2))

/-- Leg list built by fetchRealRoutesInParallel: one optional leg from the
start point to the first ordered place (only when a start point is given
and the order is nonempty), then one leg per consecutive pair. -/
def legSpecs (order : List ℕ) (startPoint : Option Coord) :
    List (Endpoint × ℕ) :=
  (match startPoint, order with
    | some _, f :: _ => [(Endpoint.start, f)]
    | _, _ => []) ++ consecutiveLegs order

/-- Coordinate of a leg endpoint: the start marker resolves to the start
point (which is present whenever the marker occurs), a place marker to
the coordinates of that place. -/
def endpointCoord (places : List Place) (startPoint : Option Coord) :
    Endpoint → Coord
  | Endpoint.start => startPoint.getD default
  | Endpoint.place i => coordAt places i

/-- Shallow embedding of getRealDistance: the road-route distance when the
lookup succeeds, the haversine fallback otherwise. -/
def getRealDistance (a b : Coord) : ℚ :=
  match router a b with
  | some r => r.distance
  | none => hD a b

/-- Assembly of one route segment from a lookup result, mirroring the
forEach over routeResults in fetchRealRoutesInParallel: a successful
lookup gives the real distance, duration, geometry and coordinates; a
failed one substitutes the haversine distance between the endpoints and
leaves duration and geometry absent. -/
def mkSegment (places : List Place) (startPoint : Option Coord)
    (spec : Endpoint × ℕ) : RouteSegment :=
  let fromCoords := endpointCoord places startPoint spec.1
  let toCoords := coordAt places spec.2
  match router fromCoords toCoords with
  | some r =>
    { src := spec.1, dst := spec.2, distance := r.distance
      duration := some r.duration, geometry := some r.geometry
      coordinates := r.coordinates }
  | none =>
    { src := spec.1, dst := spec.2, distance := hD fromCoords toCoords
      duration := none, geometry := none
      coordinates := [fromCoords, toCoords] }

/-- Shallow embedding of fetchRealRoutesInParallel(places, order,
startPoint, profile).  The concurrent lookups are independent and
re-associated to their originating leg position, so their joint effect is
the map of the per-leg resolution over the leg list in definition order;
the totals fold mirrors the accumulation over routeResults, where only a
successful lookup contributes its duration. -/
def fetchRealRoutesInParallel (places : List Place) (order : List ℕ)
    (startPoint : Option Coord) : FetchResult :=
  let routeSegments :=
    (legSpecs order startPoint).map (mkSegment hD router places startPoint)
  let totals := routeSegments.foldl
    (fun acc s =>
      match s.duration with
      | some d => (acc.1 + s.distance, acc.2 + d)
      | none => (acc.1 + s.distance, acc.2))
    ((0 : ℚ), (0 : ℚ))
  { routeSegments := routeSegments
    totalDistance := totals.1
    totalDuration := totals.2 }

/-- Per-leg long-distance flag of the classifier block in
heuristicOptimizedRoute: the condition segment.distance > threshold
evaluated on one segment. -/
def isLong (threshold : ℚ) (segment : RouteSegment) : Bool :=
  decide (segment.distance > threshold)

/-- Classifier block of heuristicOptimizedRoute (the forEach pushing the
segments whose distance exceeds the threshold, projected to the fields
from, to, distance, duration, in leg order). -/
def farSegmentsOf (threshold : ℚ) (segments : List RouteSegment) :
    List FarSegment :=
  (segments.filter (fun s => isLong threshold s)).map
    (fun s => { src := s.src, dst := s.dst, distance := s.distance
                duration := s.duration })

/-- Shallow embedding of heuristicOptimizedRoute(places, startPoint,
threshold, profile). -/
def heuristicOptimizedRoute (places : List Place) (startPoint : Option Coord)
    (threshold : ℚ) (profile : String) : OptimizedRoute :=
  let optimizedOrder := fastHeuristicOrdering hD places startPoint
  let routeData :=
    fetchRealRoutesInParallel hD router places optimizedOrder.order startPoint
  let farSegments := farSegmentsOf threshold routeData.routeSegments
  { order := optimizedOrder.order
    path := optimizedOrder.path
    startIndex := optimizedOrder.startIndex
    routeSegments := routeData.routeSegments
    totalDistance := routeData.totalDistance
    totalDuration := routeData.totalDuration
    farSegments := farSegments
    threshold := threshold
    profile := profile }

/-- Neighbor scan of one BFS frontier expansion: the indices admitted to
the queue from the current node are the still-unvisited indices, distinct
from the current one, whose edge distance from the current node (real
route when available, else haversine) lies within the budget.  In the
source the scan adds each admitted index to the visited set immediately,
but an index admitted earlier in the same scan is never an index checked
later in that scan (each idx is considered exactly once, in ascending
order), so the scan over the entry visited set is equivalent. -/
def bfsNewNeighbors (places : List Place) (maxDistance : ℚ)
    (visited : Finset ℕ) (currentIdx : ℕ) : List ℕ :=
  (List.range places.length).filter
    (fun idx => decide (idx ∉ visited ∧ idx ≠ currentIdx ∧
      getRealDistance hD router (coordAt places currentIdx)
          (coordAt places idx) ≤ maxDistance))

/-- Frontier loop of bfsReachability.  Each iteration dequeues the front
index, appends it to the reachable result exactly when its distance from
the start point is within the budget, and enqueues the admitted
still-unvisited neighbors while marking them visited.  The second
component records every dequeued index in dequeue order.  Fuel bounds the
number of iterations; the caller passes fuel that provably suffices
(bfsLoop_fuel_irrelevant). -/
def bfsLoop (places : List Place) (startPoint : Coord) (maxDistance : ℚ) :
    ℕ → Finset ℕ → List ℕ → List ℕ × List ℕ
  | 0, _, _ => ([], [])
  | _ + 1, _, [] => ([], [])
  | fuel + 1, visited, currentIdx :: rest =>
    let distFromStart :=
      getRealDistance hD router startPoint (coordAt places currentIdx)
    let newIdxs := bfsNewNeighbors hD router places maxDistance visited currentIdx
    let res := bfsLoop places startPoint maxDistance fuel
      (visited ∪ newIdxs.toFinset) (rest ++ newIdxs)
    (if distFromStart ≤ maxDistance then currentIdx :: res.1 else res.1,
      currentIdx :: res.2)

/-- Traversal state of bfsReachability: the root is the place nearest to
the start point by real-or-fallback distance (selection loop with
initializers startIndex = 0, minDist = Infinity), the queue initially
holds exactly the root and the root is marked visited.  Returns the
reachable list together with the dequeue trace. -/
def bfsTraversal (places : List Place) (startPoint : Coord)
    (maxDistance : ℚ) : List ℕ × List ℕ :=
  let startIndex := nearestIndex
    (fun idx => getRealDistance hD router startPoint (coordAt places idx))
    (List.range places.length)
  bfsLoop hD router places startPoint maxDistance (places.length + 1)
    {startIndex} [startIndex]

/-- Shallow embedding of bfsReachability(places, startPoint, maxDistance,
profile): the list of reachable place indices. -/
def bfsReachability (places : List Place) (startPoint : Coord)
    (maxDistance : ℚ) : List ℕ :=
  (bfsTraversal hD router places startPoint maxDistance).1

/-- Shallow embedding of dfsRouteExploration(places, startIdx, visited,
currentPath, maxDepth).  The source mutates a shared visited set and
path and restores both before returning, so each call leaves them
unchanged and the recursion is modelled with immutable values; the
neighbor loop sees exactly the visited set that holds the indices on the
extended path.  Fuel bounds the recursion depth; maxDepth minus the
current path length suffices (dfs_fuel_irrelevant). -/
def dfsRouteExploration (places : List Place) :
    ℕ → ℕ → Finset ℕ → List ℕ → ℕ → List (List ℕ)
  | fuel, startIdx, visited, currentPath, maxDepth =>
    if maxDepth ≤ currentPath.length ∨ visited.card = places.length then
      [currentPath]
    else
      match fuel with
      | 0 => [currentPath]
      | fuel + 1 =>
        let visitedNext := insert startIdx visited
        let pathNext := currentPath ++ [startIdx]
        let paths :=
          ((List.range places.length).filter
              (fun idx => decide (idx ∉ visitedNext))).flatMap
            (fun idx =>
              dfsRouteExploration places fuel idx visitedNext pathNext maxDepth)
        if paths = [] then [pathNext] else paths

end Model

/-- Shallow embedding of the UI entry point generateRoute of the script
source, reduced to its algorithmic control flow: the handler first
validates that at least 2 places are selected and aborts with a
user-facing message before invoking the optimizer (hence before any
router lookup); only past that gate does it call heuristicOptimizedRoute
with the selected places, the derived start point and the configured
distance threshold.  Map initialization and rendering are presentation
concerns outside the algorithmic core and are not modelled. -/
def generateRoute (hD : Coord → Coord → ℚ)
    (router : Coord → Coord → Option RouteResult)
    (selectedPlaces : List Place) (startPoint : Coord) (threshold : ℚ) :
    Except String OptimizedRoute :=
  if selectedPlaces.length < 2 then
    Except.error "Please select at least 2 tourist places to generate a route."
  else
    Except.ok (heuristicOptimizedRoute hD router selectedPlaces
      (some startPoint) threshold "driving")

/-- Coordinate distance fixture used by concrete evaluations: every pair
of coordinates is at distance zero, producing ties everywhere. -/
def dZero : Coord → Coord → ℚ := fun _ _ => 0

/-- Index-distance fixture with ties everywhere, for the tie-break
witness. -/
def fZero : ℕ → ℚ := fun _ => 0

/-- Router fixture modelling total lookup failure: every getRealRoute
call takes the catch branch and returns null. -/
def noneRouter : Coord → Coord → Option RouteResult := fun _ _ => none

/-- Router fixture that answers every lookup with a fixed successful
route of distance 42 and duration 7. -/
def routerFixed : Coord → Coord → Option RouteResult :=
  fun _ _ => some { distance := 42, duration := 7, geometry := [], coordinates := [] }

/-- Concrete place fixtures for closed evaluations. -/
def placeA : Place := ⟨"a", "A", ⟨1, 2⟩, "first"⟩

/-- Second concrete place fixture. -/
def placeB : Place := ⟨"b", "B", ⟨3, 4⟩, "second"⟩

/-- Segment fixture whose distance equals the classifier threshold used in
the witness. -/
def seg50 : RouteSegment :=
  { src := Endpoint.place 0, dst := 1, distance := 50
    duration := none, geometry := none, coordinates := [] }

/-- Segment fixture whose distance lies strictly above the classifier
threshold used in the witness. -/
def seg51 : RouteSegment :=
  { src := Endpoint.place 1, dst := 2, distance := 51
    duration := some 9, geometry := some [], coordinates := [] }

/-! Lemmas about the selection folds and the greedy loop. -/

/-- Once the nearest-unvisited fold holds a candidate it never returns to
none. -/
theorem nearestUnvisited_foldl_isSome (f : ℕ → ℚ) :
    ∀ (xs : List ℕ) (bm : ℕ × ℚ),
      ∃ c, xs.foldl
        (fun acc idx =>
          match acc with
          | none => some (idx, f idx)
          | some bm => if f idx < bm.2 then some (idx, f idx) else some bm)
        (some bm) = some c := by
  intro xs
  induction xs with
  | nil => intro bm; exact ⟨bm, rfl⟩
  | cons y ys ih =>
    intro bm
    simp only [List.foldl_cons]
    by_cases h : f y < bm.2
    · simpa [h] using ih (y, f y)
    · simpa [h] using ih bm

/-- The nearest-unvisited selection returns none exactly on the empty
candidate list. -/
theorem nearestUnvisited_eq_none_iff (f : ℕ → ℚ) (l : List ℕ) :
    nearestUnvisited f l = none ↔ l = [] := by
  cases l with
  | nil => simp [nearestUnvisited]
  | cons x xs =>
    simp only [nearestUnvisited, List.foldl_cons]
    obtain ⟨c, hc⟩ := nearestUnvisited_foldl_isSome f xs (x, f x)
    simp [hc]

/-- The nearest-unvisited selection picks a member of the candidate
list. -/
theorem nearestUnvisited_mem (f : ℕ → ℚ) (l : List ℕ) (j : ℕ)
    (h : nearestUnvisited f l = some j) : j ∈ l := by
  have aux : ∀ (xs : List ℕ) (bm : ℕ × ℚ),
      (xs.foldl
        (fun acc idx =>
          match acc with
          | none => some (idx, f idx)
          | some bm => if f idx < bm.2 then some (idx, f idx) else some bm)
        (some bm)).map Prod.fst = some j → j = bm.1 ∨ j ∈ xs := by
    intro xs
    induction xs with
    | nil => intro bm hh; simp at hh; exact Or.inl hh.symm
    | cons y ys ih =>
      intro bm hh
      simp only [List.foldl_cons] at hh
      by_cases hcmp : f y < bm.2
      · rw [if_pos hcmp] at hh
        rcases ih (y, f y) hh with h1 | h1
        · exact Or.inr (by simp [h1])
        · exact Or.inr (by simp [h1])
      · rw [if_neg hcmp] at hh
        rcases ih bm hh with h1 | h1
        · exact Or.inl h1
        · exact Or.inr (by simp [h1])
  cases l with
  | nil => simp [nearestUnvisited] at h
  | cons x xs =>
    simp only [nearestUnvisited, List.foldl_cons] at h
    rcases aux xs (x, f x) h with h1 | h1
    · simp [h1]
    · simp [h1]

/-- The init-zero selection fold picks a member of a nonempty candidate
list. -/
theorem nearestIndex_mem (f : ℕ → ℚ) (l : List ℕ) (h : l ≠ []) :
    nearestIndex f l ∈ l := by
  have aux : ∀ (xs : List ℕ) (b : ℕ) (m : ℚ),
      (xs.foldl
        (fun acc idx =>
          match acc.2 with
          | none => (idx, some (f idx))
          | some m => if f idx < m then (idx, some (f idx)) else acc)
        (b, some m)).1 = b ∨
      (xs.foldl
        (fun acc idx =>
          match acc.2 with
          | none => (idx, some (f idx))
          | some m => if f idx < m then (idx, some (f idx)) else acc)
        (b, some m)).1 ∈ xs := by
    intro xs
    induction xs with
    | nil => intro b m; exact Or.inl rfl
    | cons y ys ih =>
      intro b m
      simp only [List.foldl_cons]
      by_cases hcmp : f y < m
      · rw [if_pos hcmp]
        rcases ih y (f y) with h1 | h1
        · exact Or.inr (by simp [h1])
        · exact Or.inr (by simp [h1])
      · rw [if_neg hcmp]
        rcases ih b m with h1 | h1
        · exact Or.inl h1
        · exact Or.inr (by simp [h1])
  cases l with
  | nil => exact absurd rfl h
  | cons x xs =>
    simp only [nearestIndex, List.foldl_cons]
    rcases aux xs x (f x) with h1 | h1
    · simp [h1]
    · simp [h1]

/-- The greedy loop emits the current index first in every case. -/
theorem greedyLoop_head (f : ℕ → ℕ → ℚ) (fuel current : ℕ) (rest : List ℕ) :
    (greedyLoop f fuel current rest).head? = some current := by
  cases fuel with
  | zero => rfl
  | succ n =>
    cases h : nearestUnvisited (f current) rest with
    | none => simp [greedyLoop, h]
    | some next => simp [greedyLoop, h]

/-- With fuel at least the number of remaining indices, the greedy loop
emits the current index followed by a permutation of the remaining
unvisited indices. -/
theorem greedyLoop_perm (f : ℕ → ℕ → ℚ) :
    ∀ (fuel current : ℕ) (rest : List ℕ), rest.length ≤ fuel →
      (greedyLoop f fuel current rest).Perm (current :: rest) := by
  intro fuel
  induction fuel with
  | zero =>
    intro current rest h
    have : rest = [] := List.eq_nil_of_length_eq_zero (Nat.le_zero.mp h)
    subst this
    simp [greedyLoop]
  | succ n ih =>
    intro current rest h
    cases hnu : nearestUnvisited (f current) rest with
    | none =>
      have : rest = [] := (nearestUnvisited_eq_none_iff _ _).mp hnu
      subst this
      simp [greedyLoop, hnu]
    | some next =>
      have hmem := nearestUnvisited_mem _ _ _ hnu
      have hlen : (rest.erase next).length ≤ n := by
        rw [List.length_erase_of_mem hmem]
        omega
      have e : greedyLoop f (n + 1) current rest
          = current :: greedyLoop f n next (rest.erase next) := by
        simp [greedyLoop, hnu]
      rw [e]
      exact ((ih next (rest.erase next) hlen).trans
        (List.perm_cons_erase hmem).symm).cons current

/-- Minimum-selection invariant of the nearest-unvisited fold: starting
from a candidate whose index precedes every remaining index (the
candidate lists are ascending), the fold ends on an index attaining the
minimum distance, and on a distance tie it keeps the earlier, hence
lower, index because it replaces the candidate only on a strict
improvement. -/
theorem nearestUnvisited_fold_min (f : ℕ → ℚ) :
    ∀ (xs : List ℕ) (b : ℕ),
      List.Pairwise (· < ·) xs → (∀ i ∈ xs, b < i) →
      ∃ j, xs.foldl
          (fun acc idx =>
            match acc with
            | none => some (idx, f idx)
            | some bm => if f idx < bm.2 then some (idx, f idx) else some bm)
          (some (b, f b)) = some (j, f j) ∧
        (j = b ∨ j ∈ xs) ∧ f j ≤ f b ∧ (∀ i ∈ xs, f j ≤ f i) ∧
        (f j = f b → j = b) ∧ ∀ i ∈ xs, f i = f j → j ≤ i := by
  intro xs
  induction xs with
  | nil =>
    intro b _ _
    exact ⟨b, rfl, Or.inl rfl, le_refl _, by simp, fun _ => rfl, by simp⟩
  | cons y ys ih =>
    intro b hpw hblt
    have hyspw : List.Pairwise (· < ·) ys := (List.pairwise_cons.mp hpw).2
    have hyys : ∀ i ∈ ys, y < i := (List.pairwise_cons.mp hpw).1
    have hby : b < y := hblt y (by simp)
    simp only [List.foldl_cons]
    by_cases hcmp : f y < f b
    · rw [if_pos hcmp]
      obtain ⟨j, heq, hmem, hle, hall, htie, hltidx⟩ := ih y hyspw hyys
      refine ⟨j, heq, ?_, ?_, ?_, ?_, ?_⟩
      · rcases hmem with h | h
        · exact Or.inr (by simp [h])
        · exact Or.inr (by simp [h])
      · exact le_of_lt (lt_of_le_of_lt hle hcmp)
      · intro i hi
        rcases List.mem_cons.mp hi with h | h
        · rw [h]
          exact hle
        · exact hall i h
      · intro hEq
        exfalso
        have hlt : f j < f b := lt_of_le_of_lt hle hcmp
        rw [hEq] at hlt
        exact lt_irrefl _ hlt
      · intro i hi hEq
        rcases List.mem_cons.mp hi with h | h
        · subst h
          rw [htie hEq.symm]
        · exact hltidx i h hEq
    · rw [if_neg hcmp]
      have hbley : f b ≤ f y := le_of_not_lt hcmp
      obtain ⟨j, heq, hmem, hle, hall, htie, hltidx⟩ :=
        ih b hyspw (fun i hi => lt_trans hby (hyys i hi))
      refine ⟨j, heq, ?_, hle, ?_, htie, ?_⟩
      · rcases hmem with h | h
        · exact Or.inl h
        · exact Or.inr (by simp [h])
      · intro i hi
        rcases List.mem_cons.mp hi with h | h
        · rw [h]
          exact le_trans hle hbley
        · exact hall i h
      · intro i hi hEq
        rcases List.mem_cons.mp hi with h | h
        · subst h
          have hjb : f j = f b := le_antisymm hle (hEq ▸ hbley)
          rw [htie hjb]
          exact le_of_lt hby
        · exact hltidx i h hEq

/-- Tie-breaking of the nearest-unvisited selection on an ascending
candidate list: the selected index attains the minimum distance, and on
distance ties the lowest original index wins. -/
theorem nearestUnvisited_tie_break (f : ℕ → ℚ) (l : List ℕ) (j : ℕ)
    (hs : l.Sorted (· < ·)) (h : nearestUnvisited f l = some j) :
    j ∈ l ∧ (∀ i ∈ l, f j ≤ f i) ∧ ∀ i ∈ l, f i = f j → j ≤ i := by
  cases l with
  | nil => simp [nearestUnvisited] at h
  | cons x xs =>
    have hpw := List.sorted_cons.mp hs
    obtain ⟨j', heq, hmem, hle, hall, htie, hltidx⟩ :=
      nearestUnvisited_fold_min f xs x hpw.2 hpw.1
    have h' : nearestUnvisited f (x :: xs) = some j' := by
      simp only [nearestUnvisited, List.foldl_cons]
      rw [heq]
      rfl
    rw [h'] at h
    have hjj : j' = j := by
      injection h
    subst hjj
    refine ⟨?_, ?_, ?_⟩
    · rcases hmem with hh | hh
      · simp [hh]
      · simp [hh]
    · intro i hi
      rcases List.mem_cons.mp hi with hh | hh
      · rw [hh]
        exact hle
      · exact hall i hh
    · intro i hi hEq
      rcases List.mem_cons.mp hi with hh | hh
      · subst hh
        rw [htie (by rw [hEq])]
      · exact hltidx i hh hEq

/-- C1: for every list of places of size n and every optional start
coordinate, the order returned by fastHeuristicOrdering is a permutation
of the indices 0..n-1 with no duplicates, and the orderer is
deterministic: the embedding is a pure function, and its nearest
selection over the ascending unvisited lists of the source picks the
minimizing index with distance ties broken by the lowest original index
(third conjunct). -/
theorem fastHeuristicOrdering_order_perm (hD : Coord → Coord → ℚ)
    (places : List Place) (sp : Option Coord) :
    ((fastHeuristicOrdering hD places sp).order).Perm
        (List.range places.length) ∧
      ((fastHeuristicOrdering hD places sp).order).Nodup ∧
      ∀ (f : ℕ → ℚ) (l : List ℕ) (j : ℕ), l.Sorted (· < ·) →
        nearestUnvisited f l = some j →
        j ∈ l ∧ (∀ i ∈ l, f j ≤ f i) ∧ ∀ i ∈ l, f i = f j → j ≤ i := by
  have main : ((fastHeuristicOrdering hD places sp).order).Perm
      (List.range places.length) := by
    by_cases h0 : places.length = 0
    · simp [fastHeuristicOrdering, h0]
    · by_cases h1 : places.length = 1
      · simp [fastHeuristicOrdering, h0, h1, List.range_succ]
      · have hpos : places.length ≠ 0 := h0
        cases sp with
        | none =>
          have hc : (0 : ℕ) ∈ List.range places.length :=
            List.mem_range.mpr (by omega)
          have hperm := greedyLoop_perm (placeDist hD places)
            ((List.range places.length).erase 0).length 0
            ((List.range places.length).erase 0) le_rfl
          simp only [fastHeuristicOrdering, h0, h1, if_false]
          exact hperm.trans (List.perm_cons_erase hc).symm
        | some spt =>
          have hne : List.range places.length ≠ [] := by
            intro hh
            rw [List.range_eq_nil] at hh
            exact h0 hh
          have hc : nearestIndex (fun i => hD spt (coordAt places i))
              (List.range places.length) ∈ List.range places.length :=
            nearestIndex_mem _ _ hne
          have hperm := greedyLoop_perm (placeDist hD places)
            ((List.range places.length).erase
              (nearestIndex (fun i => hD spt (coordAt places i))
                (List.range places.length))).length
            (nearestIndex (fun i => hD spt (coordAt places i))
              (List.range places.length))
            ((List.range places.length).erase
              (nearestIndex (fun i => hD spt (coordAt places i))
                (List.range places.length))) le_rfl
          simp only [fastHeuristicOrdering, h0, h1, if_false]
          exact hperm.trans (List.perm_cons_erase hc).symm
  exact ⟨main, main.nodup_iff.mpr (List.nodup_range _),
    nearestUnvisited_tie_break⟩

/-! Segment fetcher: leg counts, assembly order and totals. -/

/-- Segment assembly keeps the endpoints of its leg specification in both
the success and the fallback branch. -/
theorem mkSegment_src_dst (hD : Coord → Coord → ℚ)
    (router : Coord → Coord → Option RouteResult) (places : List Place)
    (sp : Option Coord) (spec : Endpoint × ℕ) :
    (mkSegment hD router places sp spec).src = spec.1 ∧
      (mkSegment hD router places sp spec).dst = spec.2 := by
  cases h : router (endpointCoord places sp spec.1) (coordAt places spec.2) with
  | none => simp [mkSegment, h]
  | some r => simp [mkSegment, h]

/-- Length of the leg list: one leg per consecutive pair, plus one extra
leg exactly when a start point is given and the order is nonempty. -/
theorem legSpecs_length (order : List ℕ) :
    (legSpecs order none).length = order.length - 1 ∧
      ∀ sp : Coord, (legSpecs order (some sp)).length = order.length := by
  constructor
  · cases order with
    | nil => rfl
    | cons f rest => simp [legSpecs, consecutiveLegs, List.length_zip]
  · intro sp
    cases order with
    | nil => rfl
    | cons f rest =>
      simp [legSpecs, consecutiveLegs, List.length_zip]

/-- Segment count of the fetcher in terms of the leg list length. -/
theorem fetch_leg_count_aux (hD : Coord → Coord → ℚ)
    (router : Coord → Coord → Option RouteResult) (places : List Place)
    (order : List ℕ) :
    (fetchRealRoutesInParallel hD router places order none).routeSegments.length
        = order.length - 1 ∧
      ∀ sp : Coord,
        (fetchRealRoutesInParallel hD router places order
            (some sp)).routeSegments.length = order.length := by
  have hlen : ∀ sp : Option Coord,
      (fetchRealRoutesInParallel hD router places order
          sp).routeSegments.length = (legSpecs order sp).length := by
    intro sp
    show ((legSpecs order sp).map (mkSegment hD router places sp)).length
        = (legSpecs order sp).length
    exact List.length_map _ _
  refine ⟨?_, fun sp => ?_⟩
  · rw [hlen none]
    exact (legSpecs_length order).1
  · rw [hlen (some sp)]
    exact (legSpecs_length order).2 sp

/-- C2: for every order of n places, fetchRealRoutesInParallel builds
exactly n - 1 legs when no start point is given and exactly n legs when a
start point is given, and the assembled segments carry the leg
specifications in leg-definition order: the optional start leg to the
first ordered place first, then one leg per consecutive pair of the
order. -/
theorem fetchRealRoutesInParallel_leg_count (hD : Coord → Coord → ℚ)
    (router : Coord → Coord → Option RouteResult) (places : List Place)
    (order : List ℕ) :
    (fetchRealRoutesInParallel hD router places order none).routeSegments.length
        = order.length - 1 ∧
      (∀ sp : Coord,
        (fetchRealRoutesInParallel hD router places order
            (some sp)).routeSegments.length = order.length) ∧
      ∀ sp : Option Coord,
        (fetchRealRoutesInParallel hD router places order
            sp).routeSegments.map (fun s => (s.src, s.dst))
          = legSpecs order sp := by
  have hmap : ∀ sp : Option Coord,
      (fetchRealRoutesInParallel hD router places order
          sp).routeSegments.map (fun s => (s.src, s.dst))
        = legSpecs order sp := by
    intro sp
    show ((legSpecs order sp).map (mkSegment hD router places sp)).map
        (fun s => (s.src, s.dst)) = legSpecs order sp
    rw [List.map_map]
    have hcongr : ∀ spec ∈ legSpecs order sp,
        ((fun s : RouteSegment => (s.src, s.dst)) ∘
          mkSegment hD router places sp) spec = id spec := by
      intro spec _
      obtain ⟨h1, h2⟩ := mkSegment_src_dst hD router places sp spec
      simp [h1, h2]
    rw [List.map_congr_left hcongr, List.map_id]
  exact ⟨(fetch_leg_count_aux hD router places order).1,
    (fetch_leg_count_aux hD router places order).2, hmap⟩

/-- Totals fold of the segment fetcher, in closed form: the running pair
accumulates every distance and exactly the present durations. -/
theorem fetch_totals_foldl (l : List RouteSegment) :
    ∀ a b : ℚ,
      (l.foldl
        (fun acc s =>
          match s.duration with
          | some d => (acc.1 + s.distance, acc.2 + d)
          | none => (acc.1 + s.distance, acc.2))
        (a, b))
        = (a + (l.map RouteSegment.distance).sum,
            b + (l.filterMap RouteSegment.duration).sum) := by
  induction l with
  | nil => intro a b; simp
  | cons s t ih =>
    intro a b
    cases hd : s.duration with
    | none =>
      simp only [List.foldl_cons, hd, ih, List.map_cons, List.sum_cons,
        List.filterMap_cons, hd]
      exact Prod.ext (by ring) rfl
    | some d =>
      simp only [List.foldl_cons, hd, ih, List.map_cons, List.sum_cons,
        List.filterMap_cons, hd, List.sum_cons]
      exact Prod.ext (by ring) (by ring)

/-- C3: totalDistance is the sum of the distance fields of all assembled
legs (exactly, since the embedding computes in the rationals), and
totalDuration is the sum over only the legs whose lookup yielded a real
duration; fallback legs contribute to totalDistance but nothing to
totalDuration. -/
theorem fetchRealRoutesInParallel_totals (hD : Coord → Coord → ℚ)
    (router : Coord → Coord → Option RouteResult) (places : List Place)
    (order : List ℕ) (sp : Option Coord) :
    (fetchRealRoutesInParallel hD router places order sp).totalDistance
        = ((fetchRealRoutesInParallel hD router places order
            sp).routeSegments.map RouteSegment.distance).sum ∧
      (fetchRealRoutesInParallel hD router places order sp).totalDuration
        = ((fetchRealRoutesInParallel hD router places order
            sp).routeSegments.filterMap RouteSegment.duration).sum := by
  unfold fetchRealRoutesInParallel
  simp only [fetch_totals_foldl, zero_add]
  trivial

/-- Witness for C1 at a concrete input: on the ascending tied candidate
list 1, 2, the nearest selection picks 1, the minimum is attained and the
tie breaks to the lower index. -/
theorem fastHeuristicOrdering_order_perm_witness :
    (1 : ℕ) ∈ ([1, 2] : List ℕ) ∧
      (∀ i ∈ ([1, 2] : List ℕ), fZero 1 ≤ fZero i) ∧
      ∀ i ∈ ([1, 2] : List ℕ), fZero i = fZero 1 → 1 ≤ i :=
  (fastHeuristicOrdering_order_perm dZero [] none).2.2 fZero [1, 2] 1
    (by decide) rfl

/-- The fallback branch of segment assembly: whenever the road-route
lookup for a leg fails, that segment carries the haversine distance of
its endpoints and has no duration and no geometry. -/
theorem mkSegment_fallback (hD : Coord → Coord → ℚ)
    (router : Coord → Coord → Option RouteResult) (places : List Place)
    (sp : Option Coord) (spec : Endpoint × ℕ)
    (h : router (endpointCoord places sp spec.1) (coordAt places spec.2)
      = none) :
    mkSegment hD router places sp spec
      = { src := spec.1, dst := spec.2
          distance := hD (endpointCoord places sp spec.1)
            (coordAt places spec.2)
          duration := none, geometry := none
          coordinates := [endpointCoord places sp spec.1,
            coordAt places spec.2] } := by
  simp [mkSegment, h]

/-- C4: whenever a road-route lookup fails, the affected leg carries the
haversine distance of its endpoints with duration and geometry absent,
uniformly over all legs; and under total failure (a router that fails on
every pair) heuristicOptimizedRoute still returns a complete result: the
leg list has its full expected length for the computed order and every
leg is a fallback leg.  Totality of the embedded functions models the
absence of a fatal error. -/
theorem fetchFallback_uniform_total_failure (hD : Coord → Coord → ℚ)
    (router : Coord → Coord → Option RouteResult) (places : List Place)
    (sp : Option Coord) :
    (∀ order : List ℕ,
      ∀ s ∈ (fetchRealRoutesInParallel hD router places order
          sp).routeSegments,
        router (endpointCoord places sp s.src) (coordAt places s.dst) = none →
          s.distance
              = hD (endpointCoord places sp s.src) (coordAt places s.dst) ∧
            s.duration = none ∧ s.geometry = none) ∧
    ∀ threshold : ℚ, ∀ profile : String,
      ((heuristicOptimizedRoute hD noneRouter places sp threshold
            profile).routeSegments.length
          = if sp.isSome then
              (heuristicOptimizedRoute hD noneRouter places sp threshold
                profile).order.length
            else
              (heuristicOptimizedRoute hD noneRouter places sp threshold
                profile).order.length - 1) ∧
      ∀ s ∈ (heuristicOptimizedRoute hD noneRouter places sp threshold
          profile).routeSegments,
        s.duration = none ∧ s.geometry = none ∧
          s.distance = hD (endpointCoord places sp s.src) (coordAt places s.dst) := by
  have hfall : ∀ (router : Coord → Coord → Option RouteResult)
      (order : List ℕ),
      ∀ s ∈ (fetchRealRoutesInParallel hD router places order
          sp).routeSegments,
        router (endpointCoord places sp s.src) (coordAt places s.dst) = none →
          s.distance
              = hD (endpointCoord places sp s.src) (coordAt places s.dst) ∧
            s.duration = none ∧ s.geometry = none := by
    intro router order s hs hnone
    have hs' : s ∈ (legSpecs order sp).map (mkSegment hD router places sp) := hs
    rw [List.mem_map] at hs'
    obtain ⟨spec, hspec, rfl⟩ := hs'
    obtain ⟨h1, h2⟩ := mkSegment_src_dst hD router places sp spec
    rw [h1, h2] at hnone
    rw [mkSegment_fallback hD router places sp spec hnone]
    exact ⟨rfl, rfl, rfl⟩
  refine ⟨hfall router, fun threshold profile => ⟨?_, ?_⟩⟩
  · have hsegs : (heuristicOptimizedRoute hD noneRouter places sp threshold
        profile).routeSegments
        = (fetchRealRoutesInParallel hD noneRouter places
            (fastHeuristicOrdering hD places sp).order sp).routeSegments := rfl
    have horder : (heuristicOptimizedRoute hD noneRouter places sp threshold
        profile).order = (fastHeuristicOrdering hD places sp).order := rfl
    rw [hsegs, horder]
    cases sp with
    | none =>
      simpa using (fetch_leg_count_aux hD noneRouter places
        (fastHeuristicOrdering hD places none).order).1
    | some spt =>
      simpa using (fetch_leg_count_aux hD noneRouter places
        (fastHeuristicOrdering hD places (some spt)).order).2 spt
  · intro s hs
    have := hfall noneRouter (fastHeuristicOrdering hD places sp).order s hs rfl
    exact ⟨this.2.1, this.2.2, this.1⟩

/-- C8 counterexample: on a single-element input with no start coordinate
the source returns startIndex 0, not an absent startIndex, and likewise
on a two-element input with no start coordinate. -/
theorem fastHeuristicOrdering_startIndex_counterexample :
    (fastHeuristicOrdering dZero [placeA] none).startIndex ≠ none ∧
      (fastHeuristicOrdering dZero [placeA] none).startIndex = some 0 ∧
      (fastHeuristicOrdering dZero [placeA, placeB] none).startIndex ≠ none ∧
      (fastHeuristicOrdering dZero [placeA, placeB] none).startIndex = some 0 := by
  refine ⟨?_, rfl, ?_, ?_⟩
  · decide
  · decide
  · decide

/-- C8 amended: when no start coordinate is supplied and the place list is
nonempty, the greedy orderer begins at index 0 and returns startIndex 0
(the source stores the number 0, it does not leave the field absent); in
particular a single-element input returns the order with head 0 and
startIndex 0. -/
theorem fastHeuristicOrdering_no_start_begins_at_zero
    (hD : Coord → Coord → ℚ) (places : List Place) (h : places ≠ []) :
    (fastHeuristicOrdering hD places none).order.head? = some 0 ∧
      (fastHeuristicOrdering hD places none).startIndex = some 0 := by
  have hlen : places.length ≠ 0 := by
    simpa [List.length_eq_zero] using h
  by_cases h1 : places.length = 1
  · constructor <;> simp [fastHeuristicOrdering, hlen, h1]
  · constructor <;>
      simp [fastHeuristicOrdering, hlen, h1, greedyLoop_head]

/-- Witness for the amended C8 statement at a concrete input. -/
theorem fastHeuristicOrdering_no_start_begins_at_zero_witness :
    (fastHeuristicOrdering dZero [placeA] none).order.head? = some 0 ∧
      (fastHeuristicOrdering dZero [placeA] none).startIndex = some 0 :=
  fastHeuristicOrdering_no_start_begins_at_zero dZero [placeA] (by decide)

/-! Reachability search: termination measure, fuel irrelevance and the
dequeue-time budget check. -/

/-- The neighbor scan admits pairwise distinct indices. -/
theorem bfsNewNeighbors_nodup (hD : Coord → Coord → ℚ)
    (router : Coord → Coord → Option RouteResult) (places : List Place)
    (maxDistance : ℚ) (visited : Finset ℕ) (currentIdx : ℕ) :
    (bfsNewNeighbors hD router places maxDistance visited currentIdx).Nodup :=
  (List.nodup_range _).filter _

/-- Every index admitted by the neighbor scan is an unvisited place
index. -/
theorem bfsNewNeighbors_mem (hD : Coord → Coord → ℚ)
    (router : Coord → Coord → Option RouteResult) (places : List Place)
    (maxDistance : ℚ) (visited : Finset ℕ) (currentIdx idx : ℕ)
    (h : idx ∈ bfsNewNeighbors hD router places maxDistance visited currentIdx) :
    idx < places.length ∧ idx ∉ visited := by
  simp only [bfsNewNeighbors, List.mem_filter, List.mem_range,
    decide_eq_true_eq] at h
  exact ⟨h.1, h.2.1⟩

/-- One frontier expansion shrinks the unvisited region by exactly the
number of admitted neighbors. -/
theorem bfs_measure_step (hD : Coord → Coord → ℚ)
    (router : Coord → Coord → Option RouteResult) (places : List Place)
    (maxDistance : ℚ) (visited : Finset ℕ) (currentIdx : ℕ) :
    (Finset.range places.length \
        (visited ∪ (bfsNewNeighbors hD router places maxDistance visited
          currentIdx).toFinset)).card
      = (Finset.range places.length \ visited).card
        - (bfsNewNeighbors hD router places maxDistance visited
            currentIdx).length ∧
      (bfsNewNeighbors hD router places maxDistance visited
          currentIdx).length
        ≤ (Finset.range places.length \ visited).card := by
  set newIdxs := bfsNewNeighbors hD router places maxDistance visited currentIdx
    with hnew
  have hsub : newIdxs.toFinset ⊆ Finset.range places.length \ visited := by
    intro x hx
    rw [List.mem_toFinset] at hx
    obtain ⟨h1, h2⟩ := bfsNewNeighbors_mem hD router places maxDistance
      visited currentIdx x hx
    simp [Finset.mem_sdiff, Finset.mem_range, h1, h2]
  have hcardfin : newIdxs.toFinset.card = newIdxs.length :=
    List.toFinset_card_of_nodup
      (bfsNewNeighbors_nodup hD router places maxDistance visited currentIdx)
  have hsplit : Finset.range places.length \ (visited ∪ newIdxs.toFinset)
      = (Finset.range places.length \ visited) \ newIdxs.toFinset := by
    ext x
    simp [Finset.mem_sdiff, Finset.mem_union]
    tauto
  constructor
  · rw [hsplit, Finset.card_sdiff hsub, hcardfin]
  · rw [← hcardfin]
    exact Finset.card_le_card hsub

/-- Fuel irrelevance of the frontier loop: any fuel at least the count of
unvisited places plus the queue length yields the same result, so the
loop reaches the empty queue within that many iterations. -/
theorem bfsLoop_fuel_irrelevant (hD : Coord → Coord → ℚ)
    (router : Coord → Coord → Option RouteResult) (places : List Place)
    (startPoint : Coord) (maxDistance : ℚ) :
    ∀ (f1 f2 : ℕ) (visited : Finset ℕ) (queue : List ℕ),
      (Finset.range places.length \ visited).card + queue.length ≤ f1 →
      (Finset.range places.length \ visited).card + queue.length ≤ f2 →
      bfsLoop hD router places startPoint maxDistance f1 visited queue
        = bfsLoop hD router places startPoint maxDistance f2 visited queue := by
  intro f1
  induction f1 with
  | zero =>
    intro f2 visited queue h1 h2
    have hq : queue = [] := by
      cases queue with
      | nil => rfl
      | cons a l => simp [List.length_cons] at h1
    subst hq
    cases f2 <;> simp [bfsLoop]
  | succ n ih =>
    intro f2 visited queue h1 h2
    cases queue with
    | nil => cases f2 <;> simp [bfsLoop]
    | cons c rest =>
      cases f2 with
      | zero =>
        exfalso
        simp [List.length_cons] at h2
      | succ m =>
        simp only [bfsLoop]
        obtain ⟨hstep, hle⟩ := bfs_measure_step hD router places maxDistance
          visited c
        have hmeas : (Finset.range places.length \
            (visited ∪ (bfsNewNeighbors hD router places maxDistance visited
              c).toFinset)).card
            + (rest ++ bfsNewNeighbors hD router places maxDistance visited
                c).length
            = (Finset.range places.length \ visited).card + rest.length := by
          rw [hstep, List.length_append]
          omega
        have h1' : (Finset.range places.length \
            (visited ∪ (bfsNewNeighbors hD router places maxDistance visited
              c).toFinset)).card
            + (rest ++ bfsNewNeighbors hD router places maxDistance visited
                c).length ≤ n := by
          rw [hmeas]
          simp [List.length_cons] at h1
          omega
        have h2' : (Finset.range places.length \
            (visited ∪ (bfsNewNeighbors hD router places maxDistance visited
              c).toFinset)).card
            + (rest ++ bfsNewNeighbors hD router places maxDistance visited
                c).length ≤ m := by
          rw [hmeas]
          simp [List.length_cons] at h2
          omega
        rw [ih m _ _ h1' h2']

/-- The reachable component of the frontier loop is the dequeue trace
restricted to the indices whose distance from the start point lies
within the budget. -/
theorem bfsLoop_fst_eq_filter (hD : Coord → Coord → ℚ)
    (router : Coord → Coord → Option RouteResult) (places : List Place)
    (startPoint : Coord) (maxDistance : ℚ) :
    ∀ (fuel : ℕ) (visited : Finset ℕ) (queue : List ℕ),
      (bfsLoop hD router places startPoint maxDistance fuel visited queue).1
        = (bfsLoop hD router places startPoint maxDistance fuel visited
            queue).2.filter
            (fun i => decide (getRealDistance hD router startPoint
              (coordAt places i) ≤ maxDistance)) := by
  intro fuel
  induction fuel with
  | zero => intro visited queue; simp [bfsLoop]
  | succ n ih =>
    intro visited queue
    cases queue with
    | nil => simp [bfsLoop]
    | cons c rest =>
      simp only [bfsLoop]
      by_cases hc : getRealDistance hD router startPoint (coordAt places c)
          ≤ maxDistance
      · simp [hc, List.filter_cons, ih]
      · simp [hc, List.filter_cons, ih]

/-- Every dequeued index was either in the starting queue or outside the
starting visited set when it was admitted. -/
theorem bfsLoop_processed_origin (hD : Coord → Coord → ℚ)
    (router : Coord → Coord → Option RouteResult) (places : List Place)
    (startPoint : Coord) (maxDistance : ℚ) :
    ∀ (fuel : ℕ) (visited : Finset ℕ) (queue : List ℕ) (x : ℕ),
      x ∈ (bfsLoop hD router places startPoint maxDistance fuel visited
        queue).2 → x ∈ queue ∨ x ∉ visited := by
  intro fuel
  induction fuel with
  | zero => intro visited queue x hx; simp [bfsLoop] at hx
  | succ n ih =>
    intro visited queue x hx
    cases queue with
    | nil => simp [bfsLoop] at hx
    | cons c rest =>
      simp only [bfsLoop] at hx
      rcases List.mem_cons.mp hx with hx | hx
      · exact Or.inl (by simp [hx])
      · rcases ih _ _ x hx with hq | hv
        · rcases List.mem_append.mp hq with hr | hnew
          · exact Or.inl (by simp [hr])
          · exact Or.inr (bfsNewNeighbors_mem hD router places maxDistance
              visited c x hnew).2
        · exact Or.inr fun hxv => hv (Finset.mem_union_left _ hxv)

/-- Under the loop invariant of bfsReachability (queue without duplicates
and every queued index already visited), no index is dequeued twice:
each place is enqueued at most once. -/
theorem bfsLoop_processed_nodup (hD : Coord → Coord → ℚ)
    (router : Coord → Coord → Option RouteResult) (places : List Place)
    (startPoint : Coord) (maxDistance : ℚ) :
    ∀ (fuel : ℕ) (visited : Finset ℕ) (queue : List ℕ),
      queue.Nodup → (∀ i ∈ queue, i ∈ visited) →
      (bfsLoop hD router places startPoint maxDistance fuel visited
        queue).2.Nodup := by
  intro fuel
  induction fuel with
  | zero => intro visited queue _ _; simp [bfsLoop]
  | succ n ih =>
    intro visited queue hnd hsub
    cases queue with
    | nil => simp [bfsLoop]
    | cons c rest =>
      simp only [bfsLoop]
      have hcv : c ∈ visited := hsub c (by simp)
      have hrestnd : rest.Nodup := (List.nodup_cons.mp hnd).2
      have hcnotrest : c ∉ rest := (List.nodup_cons.mp hnd).1
      have hnewnd := bfsNewNeighbors_nodup hD router places maxDistance
        visited c
      have hdisj : ∀ x ∈ rest,
          x ∉ bfsNewNeighbors hD router places maxDistance visited c := by
        intro x hx hmemnew
        exact (bfsNewNeighbors_mem hD router places maxDistance visited c x
          hmemnew).2 (hsub x (by simp [hx]))
      have happnd : (rest ++ bfsNewNeighbors hD router places maxDistance
          visited c).Nodup := by
        rw [List.nodup_append]
        exact ⟨hrestnd, hnewnd, fun x hx => hdisj x hx⟩
      have happsub : ∀ i ∈ rest ++ bfsNewNeighbors hD router places
          maxDistance visited c,
          i ∈ visited ∪ (bfsNewNeighbors hD router places maxDistance visited
            c).toFinset := by
        intro i hi
        rcases List.mem_append.mp hi with hi | hi
        · exact Finset.mem_union_left _ (hsub i (by simp [hi]))
        · exact Finset.mem_union_right _ (List.mem_toFinset.mpr hi)
      refine List.nodup_cons.mpr ⟨?_, ih _ _ happnd happsub⟩
      intro hcmem
      rcases bfsLoop_processed_origin hD router places startPoint maxDistance
        n _ _ c hcmem with hq | hv
      · rcases List.mem_append.mp hq with hr | hnew
        · exact hcnotrest hr
        · exact (bfsNewNeighbors_mem hD router places maxDistance visited c c
            hnew).2 hcv
      · exact hv (Finset.mem_union_left _ hcv)

/-- C6: every place index in the reachability result is within the
distance budget from the root start point (real route distance when the
lookup succeeds, else haversine), and a dequeued index whose distance
from the start point exceeds the budget is excluded from the result even
though it was admitted to the queue via a short edge from a neighbor. -/
theorem bfsReachability_within_budget (hD : Coord → Coord → ℚ)
    (router : Coord → Coord → Option RouteResult) (places : List Place)
    (startPoint : Coord) (maxDistance : ℚ) (_h : places ≠ []) :
    (∀ i ∈ bfsReachability hD router places startPoint maxDistance,
        getRealDistance hD router startPoint (coordAt places i)
          ≤ maxDistance) ∧
      ∀ i ∈ (bfsTraversal hD router places startPoint maxDistance).2,
        ¬ getRealDistance hD router startPoint (coordAt places i)
            ≤ maxDistance →
          i ∉ bfsReachability hD router places startPoint maxDistance := by
  have key : bfsReachability hD router places startPoint maxDistance
      = (bfsTraversal hD router places startPoint maxDistance).2.filter
          (fun i => decide (getRealDistance hD router startPoint
            (coordAt places i) ≤ maxDistance)) := by
    unfold bfsReachability bfsTraversal
    exact bfsLoop_fst_eq_filter hD router places startPoint maxDistance _ _ _
  constructor
  · intro i hi
    rw [key] at hi
    have := (List.mem_filter.mp hi).2
    simpa using this
  · intro i _ hfar hmem
    rw [key] at hmem
    have := (List.mem_filter.mp hmem).2
    simp at this
    exact hfar this

/-- Witness for C6 at a concrete input: two places, zero fallback
distance everywhere, total lookup failure, budget 10. -/
theorem bfsReachability_within_budget_witness :
    getRealDistance dZero noneRouter ⟨0, 0⟩ (coordAt [placeA, placeB] 0)
      ≤ 10 :=
  (bfsReachability_within_budget dZero noneRouter [placeA, placeB] ⟨0, 0⟩ 10
    (by decide)).1 0 (by decide)

/-- C7: bfsReachability terminates.  Each place index is enqueued at most
once (a place in the visited set is never re-enqueued), so the dequeue
trace has no duplicates; and the frontier loop is fuel-stable from the
fuel the traversal uses onward, so the loop ends with the queue empty
within that many iterations. -/
theorem bfsReachability_terminates (hD : Coord → Coord → ℚ)
    (router : Coord → Coord → Option RouteResult) (places : List Place)
    (startPoint : Coord) (maxDistance : ℚ) (_h : places ≠ []) :
    ((bfsTraversal hD router places startPoint maxDistance).2).Nodup ∧
      ∀ fuel, places.length + 1 ≤ fuel →
        bfsLoop hD router places startPoint maxDistance fuel
            {nearestIndex (fun idx => getRealDistance hD router startPoint
              (coordAt places idx)) (List.range places.length)}
            [nearestIndex (fun idx => getRealDistance hD router startPoint
              (coordAt places idx)) (List.range places.length)]
          = bfsTraversal hD router places startPoint maxDistance := by
  have hmeas : (Finset.range places.length \
      ({nearestIndex (fun idx => getRealDistance hD router startPoint
        (coordAt places idx)) (List.range places.length)} : Finset ℕ)).card
      + 1 ≤ places.length + 1 := by
    have hsub : (Finset.range places.length \
        ({nearestIndex (fun idx => getRealDistance hD router startPoint
          (coordAt places idx)) (List.range places.length)} : Finset ℕ)).card
        ≤ places.length := by
      calc (Finset.range places.length \ _).card
          ≤ (Finset.range places.length).card :=
            Finset.card_le_card Finset.sdiff_subset
        _ = places.length := Finset.card_range _
    omega
  constructor
  · unfold bfsTraversal
    apply bfsLoop_processed_nodup
    · simp
    · simp
  · intro fuel hfuel
    unfold bfsTraversal
    apply bfsLoop_fuel_irrelevant
    · simpa using (by omega : (Finset.range places.length \
        ({nearestIndex (fun idx => getRealDistance hD router startPoint
          (coordAt places idx)) (List.range places.length)} : Finset ℕ)).card
        + 1 ≤ fuel)
    · simpa using hmeas

/-- Witness for C7 at a concrete input: the dequeue trace of the
traversal over two places has no duplicates. -/
theorem bfsReachability_terminates_witness :
    ((bfsTraversal dZero noneRouter [placeA, placeB] ⟨0, 0⟩ 10).2).Nodup :=
  (bfsReachability_terminates dZero noneRouter [placeA, placeB] ⟨0, 0⟩ 10
    (by decide)).1

/-- Witness for C4 at a concrete input: with every lookup failing, the
single consecutive leg of the order 0, 1 over two places is assembled
with the fallback distance and absent duration and geometry. -/
theorem fetchFallback_uniform_total_failure_witness :
    (mkSegment dZero noneRouter [placeA, placeB] none
        (Endpoint.place 0, 1)).distance = 0 ∧
      (mkSegment dZero noneRouter [placeA, placeB] none
        (Endpoint.place 0, 1)).duration = none ∧
      (mkSegment dZero noneRouter [placeA, placeB] none
        (Endpoint.place 0, 1)).geometry = none := by
  have h := (fetchFallback_uniform_total_failure dZero noneRouter
      [placeA, placeB] none).1 [0, 1]
    (mkSegment dZero noneRouter [placeA, placeB] none (Endpoint.place 0, 1))
    (by decide) rfl
  exact ⟨h.1, h.2.1, h.2.2⟩

/-- C5: the classifier flag for a leg is the strict comparison
distance > threshold, so a leg whose distance exactly equals the
threshold is not marked long while a leg strictly above it is; the
produced far-segment list is the flagged subset of the legs in leg order
(an order-preserving sublist, every member flagged), and the selection is
idempotent: filtering the flagged subset again changes nothing. -/
theorem routeClassifier_strict_ordered_idempotent (t : ℚ)
    (segments : List RouteSegment) (s1 s2 : RouteSegment) :
    (s1.distance = t → isLong t s1 = false) ∧
      (t < s2.distance → isLong t s2 = true) ∧
      farSegmentsOf t segments
        = (segments.filter (fun s => isLong t s)).map
            (fun s => { src := s.src, dst := s.dst, distance := s.distance
                        duration := s.duration }) ∧
      (segments.filter (fun s => isLong t s)).Sublist segments ∧
      (∀ s ∈ segments.filter (fun s => isLong t s), isLong t s = true) ∧
      (segments.filter (fun s => isLong t s)).filter (fun s => isLong t s)
        = segments.filter (fun s => isLong t s) := by
  refine ⟨?_, ?_, rfl, List.filter_sublist _, ?_, ?_⟩
  · intro h
    simp [isLong, h]
  · intro h
    simp [isLong, h]
  · intro s hs
    exact (List.mem_filter.mp hs).2
  · rw [List.filter_filter]
    apply List.filter_congr
    intro s _
    simp

/-- Witness for C5 at concrete segments around the threshold 50. -/
theorem routeClassifier_strict_ordered_idempotent_witness :
    isLong 50 seg50 = false ∧ isLong 50 seg51 = true ∧
      ([seg50, seg51].filter (fun s => isLong 50 s)).filter
          (fun s => isLong 50 s)
        = [seg50, seg51].filter (fun s => isLong 50 s) := by
  have h := routeClassifier_strict_ordered_idempotent 50 [seg50, seg51]
    seg50 seg51
  exact ⟨h.1 rfl, h.2.1 (by decide), h.2.2.2.2.2⟩

/-- C9 counterexample: heuristicOptimizedRoute itself performs no input
validation.  Called with a single place (fewer than 2) and a start point,
it does not surface a validation error: it returns a complete result and
the assembled start leg carries the distance and duration obtained from
the router, so a router lookup was performed. -/
theorem heuristicOptimizedRoute_no_validation_counterexample :
    (heuristicOptimizedRoute dZero routerFixed [placeA] (some ⟨5, 6⟩) 50
        "driving").order = [0] ∧
      (heuristicOptimizedRoute dZero routerFixed [placeA] (some ⟨5, 6⟩) 50
        "driving").routeSegments.length = 1 ∧
      (heuristicOptimizedRoute dZero routerFixed [placeA] (some ⟨5, 6⟩) 50
        "driving").routeSegments.map RouteSegment.distance = [42] ∧
      (heuristicOptimizedRoute dZero routerFixed [placeA] (some ⟨5, 6⟩) 50
        "driving").routeSegments.map RouteSegment.duration = [some 7] := by
  decide

/-- C9 amended: the fewer-than-2-places validation error is surfaced by
the UI entry point generateRoute, which aborts before the optimizer (and
hence any router lookup) is invoked; the optimizer function itself
performs no such validation and returns a complete trivial result on
undersized input. -/
theorem generateRoute_validates_before_optimizing (hD : Coord → Coord → ℚ)
    (router : Coord → Coord → Option RouteResult) (places : List Place)
    (startPoint : Coord) (threshold : ℚ) (h : places.length < 2) :
    generateRoute hD router places startPoint threshold
      = Except.error
          "Please select at least 2 tourist places to generate a route." := by
  simp [generateRoute, h]

/-- Witness for the amended C9 statement at a concrete undersized
input. -/
theorem generateRoute_validates_before_optimizing_witness :
    generateRoute dZero routerFixed [placeA] ⟨5, 6⟩ 50
      = Except.error
          "Please select at least 2 tourist places to generate a route." :=
  generateRoute_validates_before_optimizing dZero routerFixed [placeA]
    ⟨5, 6⟩ 50 (by decide)

/-! Depth-first path exploration: fuel irrelevance and the path
invariants. -/

/-- Congruence for flatMap under pointwise equal continuations. -/
theorem flatMap_congr_aux {α β : Type} (l : List α) (f g : α → List β)
    (h : ∀ x ∈ l, f x = g x) : l.flatMap f = l.flatMap g := by
  induction l with
  | nil => rfl
  | cons a t ih =>
    simp only [List.flatMap_cons]
    rw [h a (by simp), ih (fun x hx => h x (by simp [hx]))]

/-- When the depth bound is hit or every place is visited, the
exploration returns the current path regardless of fuel. -/
theorem dfs_base_case (places : List Place) (fuel startIdx : ℕ)
    (visited : Finset ℕ) (path : List ℕ) (maxDepth : ℕ)
    (hcond : maxDepth ≤ path.length ∨ visited.card = places.length) :
    dfsRouteExploration places fuel startIdx visited path maxDepth
      = [path] := by
  cases fuel with
  | zero =>
    simp only [dfsRouteExploration]
    rw [if_pos hcond]
  | succ n =>
    simp only [dfsRouteExploration]
    rw [if_pos hcond]

/-- Fuel irrelevance of the exploration: any fuel at least the remaining
depth budget yields the same result, because every recursive call grows
the path by one and the recursion stops at depth maxDepth. -/
theorem dfs_fuel_irrelevant (places : List Place) :
    ∀ (f1 f2 startIdx : ℕ) (visited : Finset ℕ) (path : List ℕ)
      (maxDepth : ℕ),
      maxDepth - path.length ≤ f1 → maxDepth - path.length ≤ f2 →
      dfsRouteExploration places f1 startIdx visited path maxDepth
        = dfsRouteExploration places f2 startIdx visited path maxDepth := by
  intro f1
  induction f1 with
  | zero =>
    intro f2 startIdx visited path maxDepth h1 h2
    have hbase : maxDepth ≤ path.length := by omega
    have hcond : maxDepth ≤ path.length ∨ visited.card = places.length :=
      Or.inl hbase
    rw [dfs_base_case places 0 startIdx visited path maxDepth hcond,
      dfs_base_case places f2 startIdx visited path maxDepth hcond]
  | succ n ih =>
    intro f2 startIdx visited path maxDepth h1 h2
    by_cases hbase : maxDepth ≤ path.length ∨ visited.card = places.length
    · rw [dfs_base_case places (n + 1) startIdx visited path maxDepth hbase,
        dfs_base_case places f2 startIdx visited path maxDepth hbase]
    · have hlt : path.length < maxDepth := by
        rcases Nat.lt_or_ge path.length maxDepth with hh | hh
        · exact hh
        · exact absurd (Or.inl hh) hbase
      cases f2 with
      | zero => omega
      | succ m =>
        simp only [dfsRouteExploration]
        rw [if_neg hbase, if_neg hbase]
        have hflat : ((List.range places.length).filter
              (fun idx => decide (idx ∉ insert startIdx visited))).flatMap
            (fun idx => dfsRouteExploration places n idx
              (insert startIdx visited) (path ++ [startIdx]) maxDepth)
            = ((List.range places.length).filter
              (fun idx => decide (idx ∉ insert startIdx visited))).flatMap
            (fun idx => dfsRouteExploration places m idx
              (insert startIdx visited) (path ++ [startIdx]) maxDepth) := by
          apply flatMap_congr_aux
          intro idx _
          apply ih
          · simp [List.length_append]
            omega
          · simp [List.length_append]
            omega
        simp only [hflat]

/-- Invariant of the exploration: starting from a path within the depth
budget whose entries are pairwise distinct and all visited, with an
unvisited current index, every returned sequence stays within the depth
budget and repeats no index. -/
theorem dfs_paths_invariant (places : List Place) :
    ∀ (fuel startIdx : ℕ) (visited : Finset ℕ) (path : List ℕ)
      (maxDepth : ℕ),
      path.length ≤ maxDepth → path.Nodup → (∀ x ∈ path, x ∈ visited) →
      startIdx ∉ visited →
      ∀ p ∈ dfsRouteExploration places fuel startIdx visited path maxDepth,
        p.length ≤ maxDepth ∧ p.Nodup := by
  intro fuel
  induction fuel with
  | zero =>
    intro startIdx visited path maxDepth hlen hnd _ _ p hp
    simp only [dfsRouteExploration, ite_self, List.mem_singleton] at hp
    subst hp
    exact ⟨hlen, hnd⟩
  | succ n ih =>
    intro startIdx visited path maxDepth hlen hnd hsub hsi p hp
    by_cases hbase : maxDepth ≤ path.length ∨ visited.card = places.length
    · simp only [dfsRouteExploration] at hp
      rw [if_pos hbase] at hp
      rw [List.mem_singleton] at hp
      subst hp
      exact ⟨hlen, hnd⟩
    · have hlt : path.length < maxDepth := by
        rcases Nat.lt_or_ge path.length maxDepth with hh | hh
        · exact hh
        · exact absurd (Or.inl hh) hbase
      have hsinotpath : startIdx ∉ path := fun hmem => hsi (hsub _ hmem)
      have hlen' : (path ++ [startIdx]).length ≤ maxDepth := by
        simp [List.length_append]
        omega
      have hdisj : path.Disjoint [startIdx] := by
        intro a ha hb
        rw [List.mem_singleton] at hb
        subst hb
        exact hsinotpath ha
      have hnd' : (path ++ [startIdx]).Nodup :=
        List.nodup_append.mpr ⟨hnd, List.nodup_singleton _, hdisj⟩
      have hsub' : ∀ x ∈ path ++ [startIdx], x ∈ insert startIdx visited := by
        intro x hx
        rcases List.mem_append.mp hx with hx | hx
        · exact Finset.mem_insert_of_mem (hsub x hx)
        · rw [List.mem_singleton] at hx
          subst hx
          exact Finset.mem_insert_self _ _
      simp only [dfsRouteExploration] at hp
      rw [if_neg hbase] at hp
      by_cases hps : ((List.range places.length).filter
            (fun idx => decide (idx ∉ insert startIdx visited))).flatMap
          (fun idx => dfsRouteExploration places n idx
            (insert startIdx visited) (path ++ [startIdx]) maxDepth) = []
      · rw [if_pos hps, List.mem_singleton] at hp
        subst hp
        exact ⟨hlen', hnd'⟩
      · rw [if_neg hps] at hp
        rw [List.mem_flatMap] at hp
        obtain ⟨idx, hidx, hpmem⟩ := hp
        rw [List.mem_filter, decide_eq_true_eq] at hidx
        exact ih idx (insert startIdx visited) (path ++ [startIdx]) maxDepth
          hlen' hnd' hsub' hidx.2 p hpmem

/-- C10: for every places list, start index, depth bound and fuel, the
exploration started from a fresh empty visited set and empty current
path returns only sequences of length at most maxDepth in which no place
index occurs more than once. -/
theorem dfsRouteExploration_bounded_nodup (places : List Place)
    (fuel startIdx maxDepth : ℕ) :
    ∀ p ∈ dfsRouteExploration places fuel startIdx ∅ [] maxDepth,
      p.length ≤ maxDepth ∧ p.Nodup := by
  intro p hp
  exact dfs_paths_invariant places fuel startIdx ∅ [] maxDepth (by simp)
    List.nodup_nil (by simp) (by simp) p hp

/-- Witness for C10 at a concrete input: the exploration over two places
from index 0 with depth bound 2 contains the path 0, 1, which is within
the bound and duplicate-free. -/
theorem dfsRouteExploration_bounded_nodup_witness :
    ([0, 1] : List ℕ).length ≤ 2 ∧ ([0, 1] : List ℕ).Nodup :=
  dfsRouteExploration_bounded_nodup [placeA, placeB] 2 0 2 [0, 1] (by decide)

end RoutePlanner
